import Mathlib

/-!
Shallow embedding of `src/main.rs` of buildexe-to-compilecommands: a parser
turning a multi-threaded build log into `compile_commands.json` entries, and
the merge of freshly parsed entries with a previously persisted database.

Log lines are modelled as `List Char` (Rust `&str` slices of the input after
`log.lines()`); Rust byte slicing `line[5..]` is modelled by `byteDrop`, which
counts UTF-8 byte widths and fails (as the Rust slice would panic) when byte
index 5 is out of bounds or not a character boundary.  The two fallible
operations of the parser (that slice, and the `expect` on the thread-directory
lookup) surface as `Except ParseError`.  The `regex` crate patterns are
embedded as explicit matching functions; `\s` and `str::trim`/
`split_whitespace` whitespace is modelled by `Char.isWhitespace`.
-/

namespace BuildExe

/-- One log line (Rust `&str`), as its character sequence. -/
abbrev Line := List Char

/-- Rust `str::starts_with` on the character level (all patterns involved are
ASCII, where character equality and byte equality coincide). -/
def isPfxOf : Line → Line → Bool
  | [], _ => true
  | _ :: _, [] => false
  | a :: as, b :: bs => a = b && isPfxOf as bs

/-- Rust `str::ends_with`. -/
def isSfxOf (s l : Line) : Bool := isPfxOf s.reverse l.reverse

/-- Rust `str::trim`, narrowed to the four ASCII whitespace characters of
`Char.isWhitespace` (Rust strips the full Unicode `White_Space` class, see
`lineTrimU`; they coincide on ASCII input). -/
def lineTrim (l : Line) : Line :=
  ((l.dropWhile Char.isWhitespace).reverse.dropWhile Char.isWhitespace).reverse

/-- Helper for `splitWs`: accumulates the current token in reverse. -/
def splitWsGo (cur : Line) : Line → List Line
  | [] => if cur = [] then [] else [cur.reverse]
  | c :: rest =>
    if c.isWhitespace then
      if cur = [] then splitWsGo [] rest else cur.reverse :: splitWsGo [] rest
    else splitWsGo (c :: cur) rest

/-- Rust `str::split_whitespace`: maximal runs of non-whitespace characters
(whitespace narrowed to the four ASCII characters of `Char.isWhitespace`;
Rust splits on the full Unicode `White_Space` class, identical on ASCII
input). -/
def splitWs (l : Line) : List Line := splitWsGo [] l

/-- Rust byte slicing `line[n..]` : drops `n` UTF-8 BYTES, returning `none`
exactly when the Rust slice would panic (fewer than `n` bytes, or byte `n`
is not a character boundary). -/
def byteDrop : Nat → Line → Option Line
  | 0, l => some l
  | _ + 1, [] => none
  | n + 1, c :: rest =>
    if c.utf8Size ≤ n + 1 then byteDrop (n + 1 - c.utf8Size) rest else none

/-- Strips an expected literal from the front of a line (used to embed the
literal portions of the regexes). -/
def dropLit : Line → Line → Option Line
  | [], l => some l
  | _ :: _, [] => none
  | a :: as, b :: bs => if a = b then dropLit as bs else none

/-- Embeds the leading `(\d{4})` capture group restricted to ASCII digits.
The regex crate's `\d` is the Unicode category `\p{Nd}`; `tagSplitU` below
models the full class, and on ASCII input the two coincide. -/
def tagSplit : Line → Option (Line × Line)
  | c0 :: c1 :: c2 :: c3 :: rest =>
    if c0.isDigit && c1.isDigit && c2.isDigit && c3.isDigit then
      some ([c0, c1, c2, c3], rest)
    else none
  | _ => none

/-- Model of `Regex::new(r"^(\d{4})>cl\s")` restricted to ASCII: the regex
crate's `\d` and `\s` are the Unicode classes `\p{Nd}` and `White_Space`,
narrowed here to `Char.isDigit` and `Char.isWhitespace`; `commandStartTagU`
below models the full classes (load-bearing for the slice-panic analysis:
a tag with a multi-byte digit makes `line[5..]` fall inside a character).
On ASCII input the two versions coincide. -/
def commandStartTag (l : Line) : Option Line :=
  match l with
  | c0 :: c1 :: c2 :: c3 :: c4 :: c5 :: c6 :: w :: _ =>
    if c0.isDigit && c1.isDigit && c2.isDigit && c3.isDigit
        && (c4 = '>') && (c5 = 'c') && (c6 = 'l') && w.isWhitespace then
      some [c0, c1, c2, c3]
    else none
  | _ => none

/-- Model of `Regex::new(r"^(\d{4})>BUILDMSG: Processing (.+)$")`: returns
(thread tag, directory capture).  `.+` forbids `\n` and must be nonempty. -/
def buildmsgMatch (l : Line) : Option (Line × Line) :=
  match tagSplit l with
  | none => none
  | some (t, rest) =>
    match dropLit ">BUILDMSG: Processing ".data rest with
    | none => none
    | some d => if d = [] || d.contains '\n' then none else some (t, d)

/-- Model of `Regex::new(r"^(\d{4})>Compiling (.+) \*+$")`: the greedy `(.+)`
capture extends to the last space that is followed by a nonempty all-`*`
run reaching the end of the line. -/
def compilingMatch (l : Line) : Option (Line × Line) :=
  match tagSplit l with
  | none => none
  | some (t, rest) =>
    match dropLit ">Compiling ".data rest with
    | none => none
    | some r =>
      let rev := r.reverse
      let stars := rev.takeWhile (fun c => c == '*')
      let rem := rev.dropWhile (fun c => c == '*')
      match stars, rem with
      | [], _ => none
      | _ :: _, ' ' :: d => if d = [] || d.contains '\n' then none else some (t, d.reverse)
      | _ :: _, _ => none

/-- Rust `struct RawCommand { dir: PathBuf, lines: Vec<String> }`. -/
structure RawCommand where
  dir : Line
  lines : List Line
deriving DecidableEq

/-- Rust `RawCommand::full_command`: the lines joined by single spaces. -/
def RawCommand.full_command (rc : RawCommand) : Line :=
  List.intercalate [' '] rc.lines

/-- Rust `RawCommand::source_files`: for each line in order, each
whitespace-delimited token ending in `.cpp` or `.c` is kept. -/
def RawCommand.source_files (rc : RawCommand) : List Line :=
  (rc.lines.map fun line =>
    (splitWs line).filter fun tok =>
      isSfxOf ".cpp".data tok || isSfxOf ".c".data tok).flatten

/-- Rust `struct CompileCommandsEntry`. -/
structure CompileCommandsEntry where
  directory : Line
  command : Line
  file : Line
deriving DecidableEq

/-- Rust `CompileCommandsEntry::from_raw_command`.  The resolution of the
absolute file path (`PathBuf::join` followed by `std::path::absolute`) is
performed by Rust's standard library and the operating system; it is
abstracted here as the function argument `resolve dir sourceFile`. -/
def CompileCommandsEntry.from_raw_command (resolve : Line → Line → Line)
    (rc : RawCommand) : List CompileCommandsEntry :=
  rc.source_files.map fun sf =>
    { directory := rc.dir, command := rc.full_command, file := resolve rc.dir sf }

/-- The two states of the parser's state machine in `get_raw_commands`. -/
inductive Mode where
  | lookingForCommand
  | readingCommand
deriving DecidableEq

/-- The mutable locals of `get_raw_commands`: `state`, `dirs`, `cur_command`,
`command_prefix` (called `commandPfx` here), `cur_thread`, `raw_commands`.
The `HashMap<String, PathBuf>` is modelled as an association list where the
most recent insertion for a key comes first. -/
structure PState where
  mode : Mode
  dirs : List (Line × Line)
  cur_command : List Line
  commandPfx : Line
  cur_thread : Line
  commands : List RawCommand
deriving DecidableEq

/-- The two ways `get_raw_commands` can panic: the `expect` when a command is
finalized for a thread with no directory entry, and the byte slice
`line[5..]` when it is out of bounds.  (The latter never happens: see the
safety theorem for C10.) -/
inductive ParseError where
  | missingDir (tag : Line)
  | slicePanic
deriving DecidableEq

instance exceptDecEq {ε α : Type} [DecidableEq ε] [DecidableEq α] :
    DecidableEq (Except ε α) := fun a b =>
  match a, b with
  | .ok x, .ok y =>
    match decEq x y with
    | isTrue h => isTrue (by rw [h])
    | isFalse h => isFalse (by intro hc; injection hc with h2; exact h h2)
  | .ok _, .error _ => isFalse (by intro hc; exact Except.noConfusion hc)
  | .error _, .ok _ => isFalse (by intro hc; exact Except.noConfusion hc)
  | .error x, .error y =>
    match decEq x y with
    | isTrue h => isTrue (by rw [h])
    | isFalse h => isFalse (by intro hc; injection hc with h2; exact h h2)

/-- The panic message carried by each failure; `missingDir` renders the
format string of the `expect` in `get_raw_commands`, naming the thread tag. -/
def panicMessage : ParseError → Line
  | .missingDir t => "Unable to determine directory for thread ".data ++ t
  | .slicePanic => "byte index 5 is out of bounds".data

/-- Rust `dirs.get(&cur_thread)` (most recent insertion wins). -/
def dirLookup (dirs : List (Line × Line)) (t : Line) : Option Line :=
  (dirs.find? fun p => p.1 == t).map fun p => p.2

/-- The body of the `State::LookingForCommand` arm: try the command-start
regex first; otherwise try the two directory regexes in order. -/
def lookingStep (st : PState) (line : Line) : Except ParseError PState :=
  match commandStartTag line with
  | some t =>
    match byteDrop 5 line with
    | some rest =>
      .ok { st with mode := Mode.readingCommand, cur_thread := t,
                    commandPfx := t ++ ['>', ' ', ' ', ' '],
                    cur_command := st.cur_command ++ [lineTrim rest] }
    | none => .error ParseError.slicePanic
  | none =>
    match buildmsgMatch line with
    | some (t, d) => .ok { st with dirs := (t, d) :: st.dirs }
    | none =>
      match compilingMatch line with
      | some (t, d) => .ok { st with dirs := (t, d) :: st.dirs }
      | none => .ok st

/-- The command-emitting half of the `State::ReadingCommand` arm: look up the
current thread's directory (the `expect` panics if absent), push the
finished `RawCommand`, clear the buffer and return to `LookingForCommand`. -/
def finalizeCommand (st : PState) : Except ParseError PState :=
  match dirLookup st.dirs st.cur_thread with
  | some d =>
    .ok { st with commands := st.commands ++ [⟨d, st.cur_command⟩],
                  cur_command := [],
                  mode := Mode.lookingForCommand }
  | none => .error (ParseError.missingDir st.cur_thread)

/-- One iteration of the `for line in log.lines()` loop.  Note that in the
`ReadingCommand` arm a non-continuation line only finalizes the command:
the loop then moves on to the NEXT line, so the terminating line itself is
consumed without being matched against the `LookingForCommand` logic. -/
def step (st : PState) (line : Line) : Except ParseError PState :=
  match st.mode with
  | Mode.lookingForCommand => lookingStep st line
  | Mode.readingCommand =>
    if isPfxOf st.commandPfx line then
      match byteDrop 5 line with
      | some rest => .ok { st with cur_command := st.cur_command ++ [lineTrim rest] }
      | none => .error ParseError.slicePanic
    else
      finalizeCommand st

/-- Runs the loop of `get_raw_commands` over the remaining lines. -/
def runLines (st : PState) : List Line → Except ParseError PState
  | [] => .ok st
  | l :: rest =>
    match step st l with
    | .ok st' => runLines st' rest
    | .error e => .error e

/-- The initial values of the mutable locals of `get_raw_commands`. -/
def initState : PState :=
  { mode := Mode.lookingForCommand, dirs := [], cur_command := [],
    commandPfx := [], cur_thread := [], commands := [] }

/-- Rust `get_raw_commands` (on the already line-split log).  A panic is
surfaced as `Except.error`. -/
def get_raw_commands (log : List Line) : Except ParseError (List RawCommand) :=
  (runLines initState log).map fun st => st.commands

/-- One `by_file.insert(command.file.clone(), command)`: the `HashMap` is
modelled as a list of entries with pairwise distinct `file` keys; inserting
an existing key replaces that entry in place, a fresh key is appended. -/
def insertByFile (acc : List CompileCommandsEntry) (e : CompileCommandsEntry) :
    List CompileCommandsEntry :=
  if e.file ∈ acc.map (fun x => x.file) then
    acc.map fun x => if x.file = e.file then e else x
  else acc ++ [e]

/-- Rust `merge_new_compile_commands`: insert all existing entries, then all
new entries, into a map keyed by `file` (later insertions overwrite), and
return its values.  `HashMap::into_values` yields an unspecified order; the
model fixes key-insertion order, and the claims about it are order-independent
set statements or hold at any fixed order. -/
def merge_new_compile_commands (existing new : List CompileCommandsEntry) :
    List CompileCommandsEntry :=
  (existing ++ new).foldl insertByFile []

/-- The processing pipeline of `main` after the log has been read and before
the result is serialized: parse the raw commands, extract one entry per
source file, merge with the existing database.  A parser panic aborts the
whole run (in `main`, `get_raw_commands` runs before anything is written). -/
def runTool (resolve : Line → Line → Line) (log : List Line)
    (existing : List CompileCommandsEntry) :
    Except ParseError (List CompileCommandsEntry) :=
  match get_raw_commands log with
  | .ok raws =>
    .ok (merge_new_compile_commands existing
      ((raws.map (CompileCommandsEntry.from_raw_command resolve)).flatten))
  | .error e => .error e

/-- Contents of `compile_commands.json` after a run: `fs::write` happens only
at the very end of `main`, so a run that panics leaves the pre-existing
database untouched. -/
def finalDatabase (resolve : Line → Line → Line) (log : List Line)
    (existing : List CompileCommandsEntry) : List CompileCommandsEntry :=
  match runTool resolve log existing with
  | .ok merged => merged
  | .error _ => existing

/-- Modelled from the spec: the spec's variant of the `ReadingCommand` arm, in
which the line that terminated a command "is evaluated again from the top of
the loop in the new state so it can itself begin a new command or announce a
new directory".  Only this re-offering differs from `step`. -/
def specStep (st : PState) (line : Line) : Except ParseError PState :=
  match st.mode with
  | Mode.lookingForCommand => lookingStep st line
  | Mode.readingCommand =>
    if isPfxOf st.commandPfx line then
      match byteDrop 5 line with
      | some rest => .ok { st with cur_command := st.cur_command ++ [lineTrim rest] }
      | none => .error ParseError.slicePanic
    else
      match finalizeCommand st with
      | .ok st2 => lookingStep st2 line
      | .error e => .error e

/-- Modelled from the spec: loop of the spec's parser variant. -/
def specRunLines (st : PState) : List Line → Except ParseError PState
  | [] => .ok st
  | l :: rest =>
    match specStep st l with
    | .ok st' => specRunLines st' rest
    | .error e => .error e

/-- Modelled from the spec: `get_raw_commands` as the spec describes it (the
terminating line is re-offered to the `LookingForCommand` matching logic). -/
def spec_get_raw_commands (log : List Line) : Except ParseError (List RawCommand) :=
  (specRunLines initState log).map fun st => st.commands

/-- Code-point ranges of the Unicode decimal-digit category `Nd`, which is
what the regex crate's `\d` matches by default.  (The amended slice-safety
theorem does not depend on the exact extent of the class, and the
counterexample only needs U+096A.) -/
def ndRanges : List (Nat × Nat) :=
  [ (0x30, 0x39), (0x660, 0x669), (0x6F0, 0x6F9), (0x7C0, 0x7C9),
    (0x966, 0x96F), (0x9E6, 0x9EF), (0xA66, 0xA6F), (0xAE6, 0xAEF),
    (0xB66, 0xB6F), (0xBE6, 0xBEF), (0xC66, 0xC6F), (0xCE6, 0xCEF),
    (0xD66, 0xD6F), (0xDE6, 0xDEF), (0xE50, 0xE59), (0xED0, 0xED9),
    (0xF20, 0xF29), (0x1040, 0x1049), (0x1090, 0x1099), (0x17E0, 0x17E9),
    (0x1810, 0x1819), (0x1946, 0x194F), (0x19D0, 0x19D9), (0x1A80, 0x1A89),
    (0x1A90, 0x1A99), (0x1B50, 0x1B59), (0x1BB0, 0x1BB9), (0x1C40, 0x1C49),
    (0x1C50, 0x1C59), (0xA620, 0xA629), (0xA8D0, 0xA8D9), (0xA900, 0xA909),
    (0xA9D0, 0xA9D9), (0xA9F0, 0xA9F9), (0xAA50, 0xAA59), (0xABF0, 0xABF9),
    (0xFF10, 0xFF19), (0x104A0, 0x104A9), (0x10D30, 0x10D39),
    (0x11066, 0x1106F), (0x110F0, 0x110F9), (0x11136, 0x1113F),
    (0x111D0, 0x111D9), (0x112F0, 0x112F9), (0x11450, 0x11459),
    (0x114D0, 0x114D9), (0x11650, 0x11659), (0x116C0, 0x116C9),
    (0x11730, 0x11739), (0x118E0, 0x118E9), (0x11950, 0x11959),
    (0x11C50, 0x11C59), (0x11D50, 0x11D59), (0x11DA0, 0x11DA9),
    (0x11F50, 0x11F59), (0x16A60, 0x16A69), (0x16AC0, 0x16AC9),
    (0x16B50, 0x16B59), (0x1D7CE, 0x1D7FF), (0x1E140, 0x1E149),
    (0x1E2F0, 0x1E2F9), (0x1E4F0, 0x1E4F9), (0x1E950, 0x1E959),
    (0x1FBF0, 0x1FBF9) ]

/-- The regex crate's `\d`: Unicode `\p{Nd}`. -/
def isUniDigit (c : Char) : Bool :=
  ndRanges.any fun p => p.1 ≤ c.toNat && c.toNat ≤ p.2

/-- Code points with the Unicode `White_Space` property: the regex crate's
`\s` and Rust `char::is_whitespace`. -/
def wsRanges : List (Nat × Nat) :=
  [ (0x9, 0xD), (0x20, 0x20), (0x85, 0x85), (0xA0, 0xA0), (0x1680, 0x1680),
    (0x2000, 0x200A), (0x2028, 0x2029), (0x202F, 0x202F), (0x205F, 0x205F),
    (0x3000, 0x3000) ]

/-- The regex crate's `\s`: Unicode `White_Space`. -/
def isUniWhite (c : Char) : Bool :=
  wsRanges.any fun p => p.1 ≤ c.toNat && c.toNat ≤ p.2

/-- Rust `str::trim` with the full Unicode `White_Space` class. -/
def lineTrimU (l : Line) : Line :=
  ((l.dropWhile isUniWhite).reverse.dropWhile isUniWhite).reverse

/-- `tagSplit` with the regex crate's Unicode-aware `\d`. -/
def tagSplitU : Line → Option (Line × Line)
  | c0 :: c1 :: c2 :: c3 :: rest =>
    if isUniDigit c0 && isUniDigit c1 && isUniDigit c2 && isUniDigit c3 then
      some ([c0, c1, c2, c3], rest)
    else none
  | _ => none

/-- `commandStartTag` with the Unicode-aware `\d` and `\s` of
`^(\d{4})>cl\s`: the faithful model of the regex crate's default classes,
under which a matched tag may contain multi-byte digits, putting byte 5 of
the line inside a character so that `line[5..]` panics. -/
def commandStartTagU (l : Line) : Option Line :=
  match l with
  | c0 :: c1 :: c2 :: c3 :: c4 :: c5 :: c6 :: w :: _ =>
    if isUniDigit c0 && isUniDigit c1 && isUniDigit c2 && isUniDigit c3
        && (c4 = '>') && (c5 = 'c') && (c6 = 'l') && isUniWhite w then
      some [c0, c1, c2, c3]
    else none
  | _ => none

/-- `buildmsgMatch` with the Unicode-aware `\d`. -/
def buildmsgMatchU (l : Line) : Option (Line × Line) :=
  match tagSplitU l with
  | none => none
  | some (t, rest) =>
    match dropLit ">BUILDMSG: Processing ".data rest with
    | none => none
    | some d => if d = [] || d.contains '\n' then none else some (t, d)

/-- `compilingMatch` with the Unicode-aware `\d`. -/
def compilingMatchU (l : Line) : Option (Line × Line) :=
  match tagSplitU l with
  | none => none
  | some (t, rest) =>
    match dropLit ">Compiling ".data rest with
    | none => none
    | some r =>
      let rev := r.reverse
      let stars := rev.takeWhile (fun c => c == '*')
      let rem := rev.dropWhile (fun c => c == '*')
      match stars, rem with
      | [], _ => none
      | _ :: _, ' ' :: d => if d = [] || d.contains '\n' then none else some (t, d.reverse)
      | _ :: _, _ => none

/-- `lookingStep` of the Unicode-faithful parser variant. -/
def lookingStepU (st : PState) (line : Line) : Except ParseError PState :=
  match commandStartTagU line with
  | some t =>
    match byteDrop 5 line with
    | some rest =>
      .ok { st with mode := Mode.readingCommand, cur_thread := t,
                    commandPfx := t ++ ['>', ' ', ' ', ' '],
                    cur_command := st.cur_command ++ [lineTrimU rest] }
    | none => .error ParseError.slicePanic
  | none =>
    match buildmsgMatchU line with
    | some (t, d) => .ok { st with dirs := (t, d) :: st.dirs }
    | none =>
      match compilingMatchU line with
      | some (t, d) => .ok { st with dirs := (t, d) :: st.dirs }
      | none => .ok st

/-- `step` of the Unicode-faithful parser variant. -/
def stepU (st : PState) (line : Line) : Except ParseError PState :=
  match st.mode with
  | Mode.lookingForCommand => lookingStepU st line
  | Mode.readingCommand =>
    if isPfxOf st.commandPfx line then
      match byteDrop 5 line with
      | some rest => .ok { st with cur_command := st.cur_command ++ [lineTrimU rest] }
      | none => .error ParseError.slicePanic
    else
      finalizeCommand st

/-- Loop of the Unicode-faithful parser variant. -/
def runLinesU (st : PState) : List Line → Except ParseError PState
  | [] => .ok st
  | l :: rest =>
    match stepU st l with
    | .ok st2 => runLinesU st2 rest
    | .error e => .error e

/-- `get_raw_commands` with the regex classes modelled at their full Unicode
extent (the faithful embedding for the slice-panic question). -/
def get_raw_commandsU (log : List Line) : Except ParseError (List RawCommand) :=
  (runLinesU initState log).map fun st => st.commands

/-- Shape invariant for the amended slice-safety theorem: while a command is
being read, the continuation pattern is eight characters long (a 4-character
tag, `>`, three spaces). -/
def ThreadShapeU (st : PState) : Prop :=
  st.mode = Mode.readingCommand → st.commandPfx.length = 8

/-- Helper relation for the merge idempotence proof: two entry lists with the
same key sequence that may differ only at entries whose `file` is `k`. -/
abbrev AgreeExcept (k : Line) : List CompileCommandsEntry → List CompileCommandsEntry → Prop :=
  List.Forall₂ fun a b => a.file = b.file ∧ (a.file ≠ k → a = b)

/-- Shape invariant maintained by the parser: while a command is being read,
the continuation pattern is the 4-digit thread tag followed by the fixed
5-character-wide separator, so the first five characters of any line it
matches are one-byte ASCII characters. -/
def ThreadShape (st : PState) : Prop :=
  st.mode = Mode.readingCommand →
    st.cur_thread.length = 4 ∧ (∀ c ∈ st.cur_thread, c.isDigit = true)
    ∧ st.commandPfx = st.cur_thread ++ ['>', ' ', ' ', ' ']

/-- Provenance of one buffered command fragment: it is the trimmed tail of a
log line (satisfying `P`) whose first four characters are the tag `t`. -/
def FromThread (P : Line → Prop) (t : Line) (frag : Line) : Prop :=
  ∃ l, P l ∧ l.take 4 = t ∧ frag = lineTrim (l.drop 5)

/-- A raw command is thread-scoped when all its fragments stem from lines of
one single 4-digit thread tag. -/
def Scoped (P : Line → Prop) (rc : RawCommand) : Prop :=
  ∃ t, t.length = 4 ∧ (∀ c ∈ t, c.isDigit = true)
    ∧ ∀ frag ∈ rc.lines, FromThread P t frag

/-- Provenance invariant threaded through the parse for the thread-scoping
theorem. -/
def Inv9 (P : Line → Prop) (st : PState) : Prop :=
  ThreadShape st
  ∧ (st.mode = Mode.lookingForCommand → st.cur_command = [])
  ∧ (∀ rc ∈ st.commands, Scoped P rc)
  ∧ (st.mode = Mode.readingCommand →
      ∀ frag ∈ st.cur_command, FromThread P st.cur_thread frag)

lemma keys_insertByFile (acc : List CompileCommandsEntry) (e : CompileCommandsEntry) :
    (insertByFile acc e).map (fun x => x.file) =
      if e.file ∈ acc.map (fun x => x.file) then acc.map (fun x => x.file)
      else acc.map (fun x => x.file) ++ [e.file] := by
  by_cases h : e.file ∈ acc.map (fun x => x.file)
  · rw [if_pos h, insertByFile, if_pos h, List.map_map]
    refine List.map_congr_left fun a _ => ?_
    by_cases hx : a.file = e.file <;> simp [hx]
  · rw [if_neg h, insertByFile, if_neg h, List.map_append]
    rfl

lemma keys_nodup_insertByFile (acc : List CompileCommandsEntry) (e : CompileCommandsEntry)
    (h : (acc.map fun x => x.file).Nodup) :
    ((insertByFile acc e).map fun x => x.file).Nodup := by
  rw [keys_insertByFile]
  by_cases hm : e.file ∈ acc.map (fun x => x.file)
  · rwa [if_pos hm]
  · rw [if_neg hm]
    exact List.Nodup.append h (List.nodup_singleton _)
      ((List.disjoint_singleton).mpr hm)

lemma keys_nodup_foldl (l : List CompileCommandsEntry)
    (acc : List CompileCommandsEntry) (h : (acc.map fun x => x.file).Nodup) :
    ((l.foldl insertByFile acc).map fun x => x.file).Nodup := by
  induction l generalizing acc with
  | nil => exact h
  | cons e rest ih => exact ih _ (keys_nodup_insertByFile acc e h)

lemma keys_mem_insertByFile (acc : List CompileCommandsEntry) (e : CompileCommandsEntry)
    (k : Line) (h : k ∈ acc.map fun x => x.file) :
    k ∈ (insertByFile acc e).map fun x => x.file := by
  rw [keys_insertByFile]
  by_cases hm : e.file ∈ acc.map (fun x => x.file)
  · rwa [if_pos hm]
  · rw [if_neg hm]
    exact List.mem_append_left _ h

lemma keys_mem_foldl (l : List CompileCommandsEntry) (acc : List CompileCommandsEntry)
    (k : Line) (h : k ∈ acc.map fun x => x.file) :
    k ∈ (l.foldl insertByFile acc).map fun x => x.file := by
  induction l generalizing acc with
  | nil => exact h
  | cons e rest ih => exact ih _ (keys_mem_insertByFile acc e k h)

lemma find?_singleton_pos (e : CompileCommandsEntry) (k : Line) (hk : k = e.file) :
    List.find? (fun x => decide (x.file = k)) [e] = some e := by
  have h1 : e.file = k := hk.symm
  simp [List.find?, h1]

lemma find?_singleton_neg (e : CompileCommandsEntry) (k : Line) (hk : ¬ k = e.file) :
    List.find? (fun x => decide (x.file = k)) [e] = none := by
  have h1 : ¬ e.file = k := fun hc => hk hc.symm
  simp [List.find?, h1]

lemma find?_insertByFile (acc : List CompileCommandsEntry) (e : CompileCommandsEntry)
    (k : Line) :
    (insertByFile acc e).find? (fun x => decide (x.file = k)) =
      if k = e.file then some e else acc.find? fun x => decide (x.file = k) := by
  by_cases hm : e.file ∈ acc.map (fun x => x.file)
  · rw [insertByFile, if_pos hm, List.find?_map]
    by_cases hk : k = e.file
    · rw [if_pos hk]
      have hpred : ((fun x => decide (x.file = k)) ∘ fun x => if x.file = e.file then e else x)
          = fun x => decide (x.file = e.file) := by
        funext x
        by_cases hx : x.file = e.file <;> simp [hx, hk]
      rw [hpred]
      obtain ⟨a0, ha0, hfa0⟩ := List.mem_map.mp hm
      cases h2 : acc.find? (fun x => decide (x.file = e.file)) with
      | none =>
        exfalso
        have := List.find?_eq_none.mp h2 a0 ha0
        simp [hfa0] at this
      | some b =>
        have hbf : b.file = e.file := by simpa using List.find?_some h2
        simp [hbf]
    · rw [if_neg hk]
      have hpred : ((fun x => decide (x.file = k)) ∘ fun x => if x.file = e.file then e else x)
          = fun x => decide (x.file = k) := by
        funext x
        by_cases hx : x.file = e.file
        · have h1 : ¬ e.file = k := fun hc => hk hc.symm
          have h2 : ¬ x.file = k := by rw [hx]; exact h1
          simp [hx, h1, h2]
        · simp [hx]
      rw [hpred]
      cases h2 : acc.find? (fun x => decide (x.file = k)) with
      | none => simp
      | some b =>
        have hbf : b.file = k := by simpa using List.find?_some h2
        have hbne : ¬ b.file = e.file := by
          rw [hbf]; exact hk
        simp [hbne]
  · rw [insertByFile, if_neg hm, List.find?_append]
    by_cases hk : k = e.file
    · rw [if_pos hk]
      have hnone : acc.find? (fun x => decide (x.file = k)) = none := by
        rw [List.find?_eq_none]
        intro x hx
        simp only [decide_eq_true_eq]
        intro hc
        apply hm
        rw [← hk, ← hc]
        exact List.mem_map_of_mem (fun x => x.file) hx
      rw [hnone, find?_singleton_pos e k hk]
      rfl
    · rw [if_neg hk, find?_singleton_neg e k hk, Option.or_none]

lemma find?_foldl_insertByFile (l : List CompileCommandsEntry)
    (acc : List CompileCommandsEntry) (k : Line) :
    (l.foldl insertByFile acc).find? (fun x => decide (x.file = k)) =
      (l.reverse.find? fun x => decide (x.file = k)).or
        (acc.find? fun x => decide (x.file = k)) := by
  induction l generalizing acc with
  | nil => simp
  | cons e rest ih =>
    show ((rest.foldl insertByFile (insertByFile acc e)).find? _) = _
    rw [ih, List.reverse_cons, List.find?_append, Option.or_assoc]
    congr 1
    rw [find?_insertByFile]
    by_cases hk : k = e.file
    · rw [if_pos hk, find?_singleton_pos e k hk]
      rfl
    · rw [if_neg hk, find?_singleton_neg e k hk]
      rfl

lemma filter_eq_toList_find? (l : List CompileCommandsEntry) (k : Line)
    (h : (l.map fun x => x.file).Nodup) :
    l.filter (fun x => decide (x.file = k)) =
      (l.find? fun x => decide (x.file = k)).toList := by
  induction l with
  | nil => rfl
  | cons a rest ih =>
    simp only [List.map_cons, List.nodup_cons] at h
    by_cases ha : a.file = k
    · have hrest : rest.filter (fun x => decide (x.file = k)) = [] := by
        rw [List.filter_eq_nil_iff]
        intro x hx
        simp only [decide_eq_true_eq]
        intro hc
        exact h.1 (ha ▸ hc ▸ List.mem_map_of_mem (fun x => x.file) hx)
      rw [List.filter_cons_of_pos (by simpa using ha), hrest,
        List.find?_cons_of_pos _ (by simpa using ha)]
      rfl
    · rw [List.filter_cons_of_neg (by simpa using ha),
        List.find?_cons_of_neg _ (by simpa using ha)]
      exact ih h.2

lemma foldl_insertByFile_fresh (S : List CompileCommandsEntry) :
    ∀ acc : List CompileCommandsEntry,
      ((acc ++ S).map fun x => x.file).Nodup →
      S.foldl insertByFile acc = acc ++ S := by
  induction S with
  | nil => intro acc _; simp
  | cons e rest ih =>
    intro acc h
    rw [List.map_append] at h
    have hmem : e.file ∉ acc.map fun x => x.file := by
      intro hmem
      rcases List.nodup_append.mp h with ⟨_, _, hdisj⟩
      exact hdisj hmem (by simp)
    show rest.foldl insertByFile (insertByFile acc e) = acc ++ e :: rest
    rw [insertByFile, if_neg hmem]
    have h' : (((acc ++ [e]) ++ rest).map fun x => x.file).Nodup := by
      rw [List.append_assoc]
      simpa [List.map_append] using h
    rw [ih (acc ++ [e]) h']
    simp

lemma agreeExcept_keys {k : Line} : ∀ {A B : List CompileCommandsEntry},
    AgreeExcept k A B → A.map (fun x => x.file) = B.map fun x => x.file := by
  intro A B h
  induction h with
  | nil => rfl
  | cons hab _ ih =>
    simp only [List.map_cons]
    rw [hab.1, ih]

lemma agreeExcept_eq {k : Line} : ∀ {A B : List CompileCommandsEntry},
    AgreeExcept k A B → k ∉ A.map (fun x => x.file) → A = B := by
  intro A B h
  induction h with
  | nil => intro _; rfl
  | @cons a b l1 l2 hab _ ih =>
    intro hk
    simp only [List.map_cons, List.mem_cons, not_or] at hk
    rw [hab.2 (fun hc => hk.1 hc.symm), ih hk.2]

lemma agreeExcept_refl (k : Line) (A : List CompileCommandsEntry) : AgreeExcept k A A := by
  induction A with
  | nil => exact List.Forall₂.nil
  | cons a rest ih => exact List.Forall₂.cons ⟨rfl, fun _ => rfl⟩ ih

lemma agreeExcept_append {k : Line} {A B : List CompileCommandsEntry}
    (h : AgreeExcept k A B) (C : List CompileCommandsEntry) :
    AgreeExcept k (A ++ C) (B ++ C) := by
  induction h with
  | nil => exact agreeExcept_refl k C
  | cons hab _ ih => exact List.Forall₂.cons hab ih

lemma agreeExcept_map_same {k : Line} (y : CompileCommandsEntry) (hy : y.file = k) :
    ∀ {A B : List CompileCommandsEntry}, AgreeExcept k A B →
      (A.map fun x => if x.file = y.file then y else x)
        = B.map fun x => if x.file = y.file then y else x := by
  intro A B h
  induction h with
  | nil => rfl
  | @cons a b l1 l2 hab _ ih =>
    simp only [List.map_cons]
    rw [ih]
    congr 1
    by_cases hx : a.file = y.file
    · rw [if_pos hx, if_pos (by rw [← hab.1]; exact hx)]
    · have hbx : ¬ b.file = y.file := by rw [← hab.1]; exact hx
      rw [if_neg hx, if_neg hbx]
      exact hab.2 fun hc => hx (hc.trans hy.symm)

lemma agreeExcept_map_other {k : Line} (y : CompileCommandsEntry) (_hy : ¬ y.file = k) :
    ∀ {A B : List CompileCommandsEntry}, AgreeExcept k A B →
      AgreeExcept k (A.map fun x => if x.file = y.file then y else x)
        (B.map fun x => if x.file = y.file then y else x) := by
  intro A B h
  induction h with
  | nil => exact List.Forall₂.nil
  | @cons a b l1 l2 hab _ ih =>
    simp only [List.map_cons]
    refine List.Forall₂.cons ?_ ih
    by_cases hx : a.file = y.file
    · have hbx : b.file = y.file := by rw [← hab.1]; exact hx
      rw [if_pos hx, if_pos hbx]
      exact ⟨rfl, fun _ => rfl⟩
    · have hbx : ¬ b.file = y.file := by rw [← hab.1]; exact hx
      rw [if_neg hx, if_neg hbx]
      exact hab

lemma agreeExcept_insert_same {k : Line} {A B : List CompileCommandsEntry}
    (y : CompileCommandsEntry) (hy : y.file = k) (h : AgreeExcept k A B) :
    insertByFile A y = insertByFile B y := by
  have hkeys := agreeExcept_keys h
  by_cases hm : y.file ∈ A.map (fun x => x.file)
  · rw [insertByFile, if_pos hm, insertByFile, if_pos (by rw [← hkeys]; exact hm)]
    exact agreeExcept_map_same y hy h
  · have hA : A = B := agreeExcept_eq h (by rw [← hy]; exact hm)
    rw [hA]

lemma agreeExcept_insert_other {k : Line} {A B : List CompileCommandsEntry}
    (y : CompileCommandsEntry) (hy : ¬ y.file = k) (h : AgreeExcept k A B) :
    AgreeExcept k (insertByFile A y) (insertByFile B y) := by
  have hkeys := agreeExcept_keys h
  by_cases hm : y.file ∈ A.map (fun x => x.file)
  · rw [insertByFile, if_pos hm, insertByFile, if_pos (by rw [← hkeys]; exact hm)]
    exact agreeExcept_map_other y hy h
  · rw [insertByFile, if_neg hm, insertByFile, if_neg (by rw [← hkeys]; exact hm)]
    exact agreeExcept_append h [y]

lemma foldl_insert_agreeExcept {k : Line} : ∀ (rest : List CompileCommandsEntry)
    {A B : List CompileCommandsEntry}, AgreeExcept k A B → (∃ y ∈ rest, y.file = k) →
    rest.foldl insertByFile A = rest.foldl insertByFile B := by
  intro rest
  induction rest with
  | nil =>
    intro A B _ hex
    exact absurd hex (by simp)
  | cons y rest' ih =>
    intro A B h hex
    by_cases hy : y.file = k
    · show rest'.foldl insertByFile (insertByFile A y) = rest'.foldl insertByFile (insertByFile B y)
      rw [agreeExcept_insert_same y hy h]
    · have h' : AgreeExcept k (insertByFile A y) (insertByFile B y) :=
        agreeExcept_insert_other y hy h
      have hex' : ∃ z ∈ rest', z.file = k := by
        rcases hex with ⟨z, hz, hzf⟩
        rcases List.mem_cons.mp hz with rfl | hz'
        · exact absurd hzf hy
        · exact ⟨z, hz', hzf⟩
      exact ih h' hex'

lemma insertByFile_key_eq (M : List CompileCommandsEntry) (e : CompileCommandsEntry) :
    ∀ x ∈ insertByFile M e, x.file = e.file → x = e := by
  intro x hx hxf
  by_cases hm : e.file ∈ M.map (fun w => w.file)
  · rw [insertByFile, if_pos hm] at hx
    rcases List.mem_map.mp hx with ⟨a, _, ha⟩
    by_cases hax : a.file = e.file
    · rw [if_pos hax] at ha
      rw [← ha]
    · rw [if_neg hax] at ha
      rw [← ha] at hxf
      exact absurd hxf hax
  · rw [insertByFile, if_neg hm] at hx
    rcases List.mem_append.mp hx with hx' | hx'
    · exact absurd (hxf ▸ List.mem_map_of_mem (fun w => w.file) hx') hm
    · have : x = e := List.mem_singleton.mp hx'
      exact this

lemma foldl_insert_key_eq (k : Line) (e : CompileCommandsEntry) :
    ∀ (l : List CompileCommandsEntry) (A : List CompileCommandsEntry),
      (∀ y ∈ l, ¬ y.file = k) → (∀ x ∈ A, x.file = k → x = e) →
      ∀ x ∈ l.foldl insertByFile A, x.file = k → x = e := by
  intro l
  induction l with
  | nil =>
    intro A _ hA
    exact hA
  | cons y rest ih =>
    intro A hl hA
    have hy : ¬ y.file = k := hl y (by simp)
    refine ih (insertByFile A y) (fun z hz => hl z (by simp [hz])) ?_
    intro x hx hxf
    by_cases hm : y.file ∈ A.map (fun w => w.file)
    · rw [insertByFile, if_pos hm] at hx
      rcases List.mem_map.mp hx with ⟨a, haA, ha⟩
      by_cases hax : a.file = y.file
      · rw [if_pos hax] at ha
        rw [← ha] at hxf
        exact absurd hxf hy
      · rw [if_neg hax] at ha
        rw [← ha]
        exact hA a haA (by rw [ha]; exact hxf)
    · rw [insertByFile, if_neg hm] at hx
      rcases List.mem_append.mp hx with hx' | hx'
      · exact hA x hx' hxf
      · have hxe : x = y := List.mem_singleton.mp hx'
        rw [hxe] at hxf
        exact absurd hxf hy

lemma insertByFile_id (A : List CompileCommandsEntry) (e : CompileCommandsEntry)
    (hm : e.file ∈ A.map fun x => x.file) (h : ∀ x ∈ A, x.file = e.file → x = e) :
    insertByFile A e = A := by
  rw [insertByFile, if_pos hm]
  have hpt : ∀ x ∈ A, (if x.file = e.file then e else x) = x := by
    intro x hx
    by_cases hxf : x.file = e.file
    · rw [if_pos hxf, ← h x hx hxf]
    · rw [if_neg hxf]
  rw [List.map_congr_left hpt]
  exact List.map_id A

lemma agreeExcept_replace_self (k : Line) (e : CompileCommandsEntry) (hk : e.file = k) :
    ∀ A : List CompileCommandsEntry,
      AgreeExcept k (A.map fun x => if x.file = e.file then e else x) A := by
  intro A
  induction A with
  | nil => exact List.Forall₂.nil
  | cons a rest ih =>
    simp only [List.map_cons]
    refine List.Forall₂.cons ?_ ih
    by_cases hx : a.file = e.file
    · rw [if_pos hx]
      exact ⟨hx.symm, fun hne => absurd hk hne⟩
    · rw [if_neg hx]
      exact ⟨rfl, fun _ => rfl⟩

lemma foldl_insert_idem (nw : List CompileCommandsEntry) :
    ∀ M : List CompileCommandsEntry,
      nw.foldl insertByFile (nw.foldl insertByFile M) = nw.foldl insertByFile M := by
  induction nw with
  | nil =>
    intro M
    rfl
  | cons e rest ih =>
    intro M
    show rest.foldl insertByFile
        (insertByFile (rest.foldl insertByFile (insertByFile M e)) e)
      = rest.foldl insertByFile (insertByFile M e)
    have hm : e.file ∈ (rest.foldl insertByFile (insertByFile M e)).map
        (fun x => x.file) := by
      apply keys_mem_foldl
      rw [keys_insertByFile]
      by_cases hm2 : e.file ∈ M.map (fun x => x.file)
      · rwa [if_pos hm2]
      · rw [if_neg hm2]
        simp
    by_cases hex : ∃ y ∈ rest, y.file = e.file
    · have hAE : AgreeExcept e.file
          (insertByFile (rest.foldl insertByFile (insertByFile M e)) e)
          (rest.foldl insertByFile (insertByFile M e)) := by
        rw [insertByFile, if_pos hm]
        exact agreeExcept_replace_self e.file e rfl _
      rw [foldl_insert_agreeExcept rest hAE hex]
      exact ih (insertByFile M e)
    · have hyr : ∀ y ∈ rest, ¬ y.file = e.file := by
        intro y hy hc
        exact hex ⟨y, hy, hc⟩
      have hAkey : ∀ x ∈ rest.foldl insertByFile (insertByFile M e),
          x.file = e.file → x = e :=
        foldl_insert_key_eq e.file e rest (insertByFile M e) hyr (insertByFile_key_eq M e)
      rw [insertByFile_id _ e hm hAkey]
      exact ih (insertByFile M e)

lemma find?_eq_head?_filter (p : CompileCommandsEntry → Bool) :
    ∀ l : List CompileCommandsEntry, l.find? p = (l.filter p).head? := by
  intro l
  induction l with
  | nil => rfl
  | cons a rest ih =>
    by_cases ha : p a = true
    · rw [List.find?_cons_of_pos _ ha, List.filter_cons_of_pos ha]
      rfl
    · rw [List.find?_cons_of_neg _ ha, List.filter_cons_of_neg ha]
      exact ih

lemma find?_self_of_nodup : ∀ (l : List CompileCommandsEntry) (e : CompileCommandsEntry),
    (l.map fun x => x.file).Nodup → e ∈ l →
    l.find? (fun x => decide (x.file = e.file)) = some e := by
  intro l
  induction l with
  | nil =>
    intro e _ he
    exact absurd he (by simp)
  | cons a rest ih =>
    intro e hnd he
    simp only [List.map_cons, List.nodup_cons] at hnd
    rcases List.mem_cons.mp he with rfl | he'
    · exact List.find?_cons_of_pos _ (by simp)
    · have hane : ¬ a.file = e.file := by
        intro hc
        exact hnd.1 (hc ▸ List.mem_map_of_mem (fun x => x.file) he')
      rw [List.find?_cons_of_neg _ (by simpa using hane)]
      exact ih e hnd.2 he'

lemma merge_keys_nodup (existing nw : List CompileCommandsEntry) :
    ((merge_new_compile_commands existing nw).map fun x => x.file).Nodup :=
  keys_nodup_foldl _ _ (by simp)

lemma runLines_no_command (log : List Line) : ∀ st : PState,
    st.mode = Mode.lookingForCommand → (∀ l ∈ log, commandStartTag l = none) →
    ∃ dirs2, runLines st log = .ok { st with dirs := dirs2 } := by
  induction log with
  | nil =>
    intro st _ _
    exact ⟨st.dirs, rfl⟩
  | cons l rest ih =>
    intro st hmode hl
    have hstep : ∃ d2, step st l = .ok { st with dirs := d2 } := by
      obtain ⟨mode, dirs, cur, pfx, thr, cmds⟩ := st
      dsimp only at hmode
      subst hmode
      simp only [step, lookingStep, hl l (by simp)]
      cases hb : buildmsgMatch l with
      | some td =>
        obtain ⟨t, d⟩ := td
        exact ⟨(t, d) :: dirs, rfl⟩
      | none =>
        cases hc : compilingMatch l with
        | some td =>
          obtain ⟨t, d⟩ := td
          exact ⟨(t, d) :: dirs, rfl⟩
        | none => exact ⟨dirs, rfl⟩
    obtain ⟨d2, hd2⟩ := hstep
    have hrun : runLines st (l :: rest) = runLines { st with dirs := d2 } rest := by
      show (match step st l with
        | .ok st2 => runLines st2 rest
        | .error e => .error e) = _
      rw [hd2]
    rw [hrun]
    obtain ⟨d3, hd3⟩ := ih { st with dirs := d2 } (by simpa using hmode)
      (fun x hx => hl x (List.mem_cons_of_mem l hx))
    exact ⟨d3, hd3⟩

/-- C4: for every log with no command-start line (no line matching a 4-digit
tag, `>cl` and whitespace), the parser returns an empty raw-command sequence,
and merging the resulting empty new-entry set with an existing database
(whose `file` keys are pairwise distinct, the database-key invariant of the
persisted form) yields that database unchanged. -/
theorem c4_no_command_start (log : List Line) (existing : List CompileCommandsEntry)
    (hlog : ∀ l ∈ log, commandStartTag l = none)
    (hnodupE : (existing.map fun x => x.file).Nodup) :
    get_raw_commands log = Except.ok []
    ∧ merge_new_compile_commands existing [] = existing := by
  constructor
  · obtain ⟨d2, hd2⟩ := runLines_no_command log initState rfl hlog
    rw [get_raw_commands, hd2]
    rfl
  · rw [merge_new_compile_commands, List.append_nil]
    have h : ((([] : List CompileCommandsEntry) ++ existing).map fun x => x.file).Nodup := by
      simpa using hnodupE
    rw [foldl_insertByFile_fresh existing [] h]
    rfl

theorem c4_no_command_start_witness :
    (∀ l ∈ [ "0001>BUILDMSG: Processing C:/x".data,
             "0001>Compiling C:/y ****".data,
             "hello world".data ], commandStartTag l = none)
    ∧ (([⟨"d".data, "c".data, "X".data⟩, ⟨"d".data, "c".data, "Y".data⟩]
          : List CompileCommandsEntry).map fun x => x.file).Nodup
    ∧ (get_raw_commands [ "0001>BUILDMSG: Processing C:/x".data,
                          "0001>Compiling C:/y ****".data,
                          "hello world".data ] = Except.ok []
       ∧ merge_new_compile_commands
           [⟨"d".data, "c".data, "X".data⟩, ⟨"d".data, "c".data, "Y".data⟩] []
         = [⟨"d".data, "c".data, "X".data⟩, ⟨"d".data, "c".data, "Y".data⟩]) :=
  ⟨by decide, by decide,
    c4_no_command_start _ _ (by decide) (by decide)⟩

/-- C5: merge is idempotent: taking the output of a merge as the existing set
and merging the same new entries again yields the same database. -/
theorem c5_merge_idempotent (existing nw : List CompileCommandsEntry) :
    merge_new_compile_commands (merge_new_compile_commands existing nw) nw
      = merge_new_compile_commands existing nw := by
  have h1 : merge_new_compile_commands (merge_new_compile_commands existing nw) nw
      = nw.foldl insertByFile
          ((merge_new_compile_commands existing nw).foldl insertByFile []) :=
    List.foldl_append _ _ _ _
  have h2 : (merge_new_compile_commands existing nw).foldl insertByFile []
      = merge_new_compile_commands existing nw := by
    have hnd : ((([] : List CompileCommandsEntry)
        ++ merge_new_compile_commands existing nw).map fun x => x.file).Nodup := by
      simpa using merge_keys_nodup existing nw
    have h := foldl_insertByFile_fresh (merge_new_compile_commands existing nw) [] hnd
    simpa using h
  have h3 : merge_new_compile_commands existing nw
      = nw.foldl insertByFile (existing.foldl insertByFile []) :=
    List.foldl_append _ _ _ _
  rw [h1, h2, h3, foldl_insert_idem]

/-- C3: if the existing set has an entry for file X (its keys being pairwise
distinct, the database-key invariant) and the new set contains exactly one
entry for X, carrying a different command, then the merged result contains
exactly one entry keyed X, namely the new entry; and every existing entry
whose file has no new entry is retained unchanged as the unique entry for
its key. -/
theorem c3_merge_overwrite (existing nw : List CompileCommandsEntry) (X : Line)
    (eX nX : CompileCommandsEntry)
    (_hmemE : eX ∈ existing) (_hfE : eX.file = X)
    (hnodupE : (existing.map fun x => x.file).Nodup)
    (hnew : nw.filter (fun n => decide (n.file = X)) = [nX])
    (_hdiff : ¬ nX.command = eX.command) :
    (merge_new_compile_commands existing nw).filter (fun x => decide (x.file = X)) = [nX]
    ∧ ∀ e ∈ existing, (∀ n ∈ nw, ¬ n.file = e.file) →
        (merge_new_compile_commands existing nw).filter
          (fun x => decide (x.file = e.file)) = [e] := by
  have hmergednd := merge_keys_nodup existing nw
  constructor
  · have hfind : (merge_new_compile_commands existing nw).find?
        (fun x => decide (x.file = X)) = some nX := by
      rw [merge_new_compile_commands, find?_foldl_insertByFile]
      have hrev : ((existing ++ nw).reverse.find? fun x => decide (x.file = X))
          = some nX := by
        rw [List.reverse_append, List.find?_append]
        have hn : nw.reverse.find? (fun x => decide (x.file = X)) = some nX := by
          rw [find?_eq_head?_filter, List.filter_reverse, hnew]
          rfl
        rw [hn]
        rfl
      rw [hrev]
      rfl
    rw [filter_eq_toList_find? _ X hmergednd, hfind]
    rfl
  · intro e heE hnone
    have hfind : (merge_new_compile_commands existing nw).find?
        (fun x => decide (x.file = e.file)) = some e := by
      rw [merge_new_compile_commands, find?_foldl_insertByFile,
        List.reverse_append, List.find?_append]
      have hn : nw.reverse.find? (fun x => decide (x.file = e.file)) = none := by
        rw [List.find?_eq_none]
        intro x hx
        simp only [decide_eq_true_eq]
        exact hnone x (List.mem_reverse.mp hx)
      have hE : existing.reverse.find? (fun x => decide (x.file = e.file)) = some e := by
        apply find?_self_of_nodup
        · rw [List.map_reverse]
          exact (List.nodup_reverse).mpr hnodupE
        · exact List.mem_reverse.mpr heE
      rw [hn, hE]
      rfl
    rw [filter_eq_toList_find? _ e.file hmergednd, hfind]
    rfl

theorem c3_merge_overwrite_witness :
    ((⟨"d1".data, "c1".data, "X".data⟩ : CompileCommandsEntry)
        ∈ [(⟨"d1".data, "c1".data, "X".data⟩ : CompileCommandsEntry),
           ⟨"d1".data, "c0".data, "Y".data⟩])
    ∧ (List.filter (fun n => decide (n.file = "X".data))
        [(⟨"d2".data, "c2".data, "X".data⟩ : CompileCommandsEntry)]
        = [⟨"d2".data, "c2".data, "X".data⟩])
    ∧ ((merge_new_compile_commands
          [⟨"d1".data, "c1".data, "X".data⟩, ⟨"d1".data, "c0".data, "Y".data⟩]
          [⟨"d2".data, "c2".data, "X".data⟩]).filter
            (fun x => decide (x.file = "X".data))
        = [⟨"d2".data, "c2".data, "X".data⟩]
      ∧ ∀ e ∈ [(⟨"d1".data, "c1".data, "X".data⟩ : CompileCommandsEntry),
               ⟨"d1".data, "c0".data, "Y".data⟩],
          (∀ n ∈ [(⟨"d2".data, "c2".data, "X".data⟩ : CompileCommandsEntry)],
            ¬ n.file = e.file) →
          (merge_new_compile_commands
            [⟨"d1".data, "c1".data, "X".data⟩, ⟨"d1".data, "c0".data, "Y".data⟩]
            [⟨"d2".data, "c2".data, "X".data⟩]).filter
              (fun x => decide (x.file = e.file)) = [e]) :=
  ⟨by decide, by decide,
    c3_merge_overwrite
      [⟨"d1".data, "c1".data, "X".data⟩, ⟨"d1".data, "c0".data, "Y".data⟩]
      [⟨"d2".data, "c2".data, "X".data⟩] "X".data
      ⟨"d1".data, "c1".data, "X".data⟩ ⟨"d2".data, "c2".data, "X".data⟩
      (by decide) (by decide) (by decide) (by decide) (by decide)⟩

lemma isPfxOf_iff (p : Line) : ∀ l : Line, isPfxOf p l = true ↔ ∃ r, p ++ r = l := by
  induction p with
  | nil =>
    intro l
    simp [isPfxOf]
  | cons a as ih =>
    intro l
    cases l with
    | nil =>
      simp [isPfxOf]
    | cons b bs =>
      simp only [isPfxOf, Bool.and_eq_true, decide_eq_true_eq, ih bs]
      constructor
      · rintro ⟨rfl, r, rfl⟩
        exact ⟨r, rfl⟩
      · rintro ⟨r, hr⟩
        rw [List.cons_append] at hr
        injection hr with h1 h2
        exact ⟨h1, r, h2⟩

lemma isSfxOf_iff (sfx l : Line) : isSfxOf sfx l = true ↔ ∃ r, r ++ sfx = l := by
  rw [isSfxOf, isPfxOf_iff]
  constructor
  · rintro ⟨r, hr⟩
    refine ⟨r.reverse, ?_⟩
    have h2 := congrArg List.reverse hr
    simpa using h2
  · rintro ⟨r, hr⟩
    refine ⟨r.reverse, ?_⟩
    rw [← hr]
    simp

lemma length_four (t : Line) (h : t.length = 4) : ∃ a b c d, t = [a, b, c, d] := by
  rcases t with _ | ⟨a, t1⟩
  · simp at h
  rcases t1 with _ | ⟨b, t2⟩
  · simp at h
  rcases t2 with _ | ⟨c, t3⟩
  · simp at h
  rcases t3 with _ | ⟨d, t4⟩
  · simp at h
  rcases t4 with _ | ⟨e, t5⟩
  · exact ⟨a, b, c, d, rfl⟩
  · simp [List.length_cons] at h

lemma utf8Size_of_isDigit (c : Char) (h : c.isDigit = true) : c.utf8Size = 1 := by
  simp only [Char.isDigit, Bool.and_eq_true, decide_eq_true_eq] at h
  have h127 : c.val ≤ UInt32.ofNatCore 127 Char.utf8Size.proof_1 := by
    have h57 : c.val.toNat ≤ 57 := h.2
    exact Nat.le_trans h57 (by decide)
  show (if c.val ≤ UInt32.ofNatCore 127 Char.utf8Size.proof_1 then 1
    else if c.val ≤ UInt32.ofNatCore 2047 Char.utf8Size.proof_2 then 2
    else if c.val ≤ UInt32.ofNatCore 65535 Char.utf8Size.proof_3 then 3 else 4) = 1
  rw [if_pos h127]

lemma byteDrop_cons_ascii (n : Nat) (c : Char) (rest : Line) (h : c.utf8Size = 1) :
    byteDrop (n + 1) (c :: rest) = byteDrop n rest := by
  rw [byteDrop, h, if_pos (Nat.succ_le_succ (Nat.zero_le n)), Nat.add_sub_cancel]

lemma byteDrop5_ascii (c0 c1 c2 c3 c4 : Char) (rest : Line)
    (h0 : c0.utf8Size = 1) (h1 : c1.utf8Size = 1) (h2 : c2.utf8Size = 1)
    (h3 : c3.utf8Size = 1) (h4 : c4.utf8Size = 1) :
    byteDrop 5 (c0 :: c1 :: c2 :: c3 :: c4 :: rest) = some rest := by
  rw [byteDrop_cons_ascii _ _ _ h0, byteDrop_cons_ascii _ _ _ h1,
    byteDrop_cons_ascii _ _ _ h2, byteDrop_cons_ascii _ _ _ h3,
    byteDrop_cons_ascii _ _ _ h4]
  simp [byteDrop]

lemma commandStart_inv (l t : Line) (h : commandStartTag l = some t) :
    t = l.take 4 ∧ t.length = 4 ∧ (∀ c ∈ t, c.isDigit = true)
    ∧ byteDrop 5 l = some (l.drop 5) := by
  rcases l with _ | ⟨c0, _ | ⟨c1, _ | ⟨c2, _ | ⟨c3, _ | ⟨c4, _ | ⟨c5, _ | ⟨c6, _ | ⟨w, r⟩⟩⟩⟩⟩⟩⟩⟩
  · simp [commandStartTag] at h
  · simp [commandStartTag] at h
  · simp [commandStartTag] at h
  · simp [commandStartTag] at h
  · simp [commandStartTag] at h
  · simp [commandStartTag] at h
  · simp [commandStartTag] at h
  · simp [commandStartTag] at h
  rw [commandStartTag] at h
  by_cases hc : (c0.isDigit && c1.isDigit && c2.isDigit && c3.isDigit
      && (c4 = '>') && (c5 = 'c') && (c6 = 'l') && w.isWhitespace) = true
  · rw [if_pos hc] at h
    injection h with ht
    simp only [Bool.and_eq_true, decide_eq_true_eq] at hc
    obtain ⟨⟨⟨⟨⟨⟨⟨hd0, hd1⟩, hd2⟩, hd3⟩, hgt⟩, hcc⟩, hcl⟩, hw⟩ := hc
    subst hgt
    refine ⟨by rw [← ht]; rfl, by rw [← ht]; rfl, ?_, ?_⟩
    · intro c hcmem
      rw [← ht] at hcmem
      simp only [List.mem_cons, List.not_mem_nil, or_false] at hcmem
      rcases hcmem with rfl | rfl | rfl | rfl <;> assumption
    · rw [byteDrop5_ascii c0 c1 c2 c3 '>' _
        (utf8Size_of_isDigit c0 hd0) (utf8Size_of_isDigit c1 hd1)
        (utf8Size_of_isDigit c2 hd2) (utf8Size_of_isDigit c3 hd3) (by decide)]
      rfl
  · rw [if_neg hc] at h
    exact absurd h (by simp)

lemma contPfx_inv (t l : Line) (ht4 : t.length = 4) (htd : ∀ c ∈ t, c.isDigit = true)
    (h : isPfxOf (t ++ ['>', ' ', ' ', ' ']) l = true) :
    l.take 4 = t ∧ byteDrop 5 l = some (l.drop 5) := by
  obtain ⟨a, b, c, d, rfl⟩ := length_four t ht4
  obtain ⟨r, hr⟩ := (isPfxOf_iff _ l).mp h
  rw [← hr]
  constructor
  · rfl
  · rw [show ([a, b, c, d] ++ ['>', ' ', ' ', ' ']) ++ r
        = a :: b :: c :: d :: '>' :: (' ' :: ' ' :: ' ' :: r) from rfl]
    rw [byteDrop5_ascii a b c d '>' _
      (utf8Size_of_isDigit a (htd a (by simp))) (utf8Size_of_isDigit b (htd b (by simp)))
      (utf8Size_of_isDigit c (htd c (by simp))) (utf8Size_of_isDigit d (htd d (by simp)))
      (by decide)]
    rfl

lemma runLines_cons_ok (st st2 : PState) (l : Line) (rest : List Line)
    (h : step st l = .ok st2) : runLines st (l :: rest) = runLines st2 rest := by
  rw [runLines, h]

lemma runLines_cons_err (st : PState) (l : Line) (rest : List Line) (e : ParseError)
    (h : step st l = .error e) : runLines st (l :: rest) = .error e := by
  rw [runLines, h]

lemma runLines_append_ok (xs ys : List Line) : ∀ st st2 : PState,
    runLines st xs = .ok st2 → runLines st (xs ++ ys) = runLines st2 ys := by
  induction xs with
  | nil =>
    intro st st2 h
    rw [runLines] at h
    injection h with h2
    rw [List.nil_append, h2]
  | cons l rest ih =>
    intro st st2 h
    cases hs : step st l with
    | ok st3 =>
      rw [runLines_cons_ok st st3 l rest hs] at h
      rw [List.cons_append, runLines_cons_ok st st3 l (rest ++ ys) hs]
      exact ih st3 st2 h
    | error e =>
      rw [runLines_cons_err st l rest e hs] at h
      exact Except.noConfusion h

lemma step_shape (st : PState) (line : Line) (hsh : ThreadShape st) :
    (∀ e, step st line = .error e → ∃ t2, e = ParseError.missingDir t2)
    ∧ (∀ st2, step st line = .ok st2 → ThreadShape st2) := by
  obtain ⟨mode, dirs, cur, pfx, thr, cmds⟩ := st
  cases mode with
  | lookingForCommand =>
    cases hcs : commandStartTag line with
    | some t =>
      obtain ⟨hteq, ht4, htd, hbd⟩ := commandStart_inv line t hcs
      simp only [step, lookingStep, hcs, hbd]
      refine ⟨fun e he => Except.noConfusion he, ?_⟩
      intro st2 hok
      injection hok with h2
      rw [← h2]
      intro _
      exact ⟨ht4, htd, rfl⟩
    | none =>
      cases hb : buildmsgMatch line with
      | some td =>
        obtain ⟨t, d⟩ := td
        simp only [step, lookingStep, hcs, hb]
        refine ⟨fun e he => Except.noConfusion he, ?_⟩
        intro st2 hok
        injection hok with h2
        rw [← h2]
        intro hmode2
        exact Mode.noConfusion hmode2
      | none =>
        cases hc : compilingMatch line with
        | some td =>
          obtain ⟨t, d⟩ := td
          simp only [step, lookingStep, hcs, hb, hc]
          refine ⟨fun e he => Except.noConfusion he, ?_⟩
          intro st2 hok
          injection hok with h2
          rw [← h2]
          intro hmode2
          exact Mode.noConfusion hmode2
        | none =>
          simp only [step, lookingStep, hcs, hb, hc]
          refine ⟨fun e he => Except.noConfusion he, ?_⟩
          intro st2 hok
          injection hok with h2
          rw [← h2]
          intro hmode2
          exact Mode.noConfusion hmode2
  | readingCommand =>
    obtain ⟨ht4, htd, hpfx⟩ := hsh rfl
    by_cases hp : isPfxOf pfx line = true
    · obtain ⟨-, hbd⟩ := contPfx_inv thr line ht4 htd (by rw [← hpfx]; exact hp)
      simp only [step]
      rw [if_pos hp, hbd]
      refine ⟨fun e he => Except.noConfusion he, ?_⟩
      intro st2 hok
      injection hok with h2
      rw [← h2]
      intro _
      exact ⟨ht4, htd, hpfx⟩
    · simp only [step]
      rw [if_neg hp]
      cases hd : dirLookup dirs thr with
      | some d =>
        simp only [finalizeCommand, hd]
        refine ⟨fun e he => Except.noConfusion he, ?_⟩
        intro st2 hok
        injection hok with h2
        rw [← h2]
        intro hmode2
        exact Mode.noConfusion hmode2
      | none =>
        simp only [finalizeCommand, hd]
        refine ⟨?_, ?_⟩
        · intro e he
          injection he with h2
          exact ⟨thr, h2.symm⟩
        · intro st2 hok
          exact Except.noConfusion hok

lemma runLines_shape_no_slice (log : List Line) : ∀ st : PState, ThreadShape st →
    runLines st log ≠ .error ParseError.slicePanic := by
  induction log with
  | nil =>
    intro st _ h
    rw [runLines] at h
    exact Except.noConfusion h
  | cons l rest ih =>
    intro st hsh h
    obtain ⟨herr, hok⟩ := step_shape st l hsh
    cases hs : step st l with
    | ok st2 =>
      rw [runLines_cons_ok st st2 l rest hs] at h
      exact ih st2 (hok st2 hs) h
    | error e =>
      rw [runLines_cons_err st l rest e hs] at h
      obtain ⟨t2, rfl⟩ := herr e hs
      injection h with h2
      exact ParseError.noConfusion h2


lemma step_commandStart (st : PState) (line t : Line)
    (hmode : st.mode = Mode.lookingForCommand) (hcs : commandStartTag line = some t) :
    step st line = .ok { st with
                         mode := Mode.readingCommand, cur_thread := t,
                         commandPfx := t ++ ['>', ' ', ' ', ' '],
                         cur_command := st.cur_command ++ [lineTrim (line.drop 5)] } := by
  obtain ⟨hteq, ht4, htd, hbd⟩ := commandStart_inv line t hcs
  obtain ⟨mode, dirs, cur, pfx, thr, cmds⟩ := st
  dsimp only at hmode ⊢
  subst hmode
  simp only [step, lookingStep, hcs, hbd]

lemma step_cont (st : PState) (line : Line)
    (hmode : st.mode = Mode.readingCommand) (hsh : ThreadShape st)
    (hp : isPfxOf st.commandPfx line = true) :
    step st line
      = .ok { st with cur_command := st.cur_command ++ [lineTrim (line.drop 5)] } := by
  obtain ⟨ht4, htd, hpfx⟩ := hsh hmode
  obtain ⟨-, hbd⟩ := contPfx_inv st.cur_thread line ht4 htd (by rw [← hpfx]; exact hp)
  obtain ⟨mode, dirs, cur, pfx, thr, cmds⟩ := st
  dsimp only at hmode hp hbd ⊢
  subst hmode
  simp only [step]
  rw [if_pos hp, hbd]

lemma step_finalize_err (st : PState) (line : Line)
    (hmode : st.mode = Mode.readingCommand)
    (hp : isPfxOf st.commandPfx line = false)
    (hd : dirLookup st.dirs st.cur_thread = none) :
    step st line = .error (ParseError.missingDir st.cur_thread) := by
  obtain ⟨mode, dirs, cur, pfx, thr, cmds⟩ := st
  dsimp only at hmode hp hd ⊢
  subst hmode
  simp only [step]
  rw [if_neg (by rw [hp]; exact Bool.false_ne_true)]
  simp only [finalizeCommand, hd]

/-- C2: if after some prefix of the log the parser is reading a command for a
thread with no entry in the thread-to-directory map, then the first
non-continuation line makes the run fail with the missing-directory panic
whose message names the offending thread tag, and the output database is left
untouched (the pre-existing one survives). -/
theorem c2_missing_dir_fatal (base : List Line) (line : Line) (rest : List Line)
    (st : PState) (resolve : Line → Line → Line) (existing : List CompileCommandsEntry)
    (hrun : runLines initState base = .ok st)
    (hmode : st.mode = Mode.readingCommand)
    (hterm : isPfxOf st.commandPfx line = false)
    (hdir : dirLookup st.dirs st.cur_thread = none) :
    get_raw_commands (base ++ line :: rest)
        = Except.error (ParseError.missingDir st.cur_thread)
    ∧ runTool resolve (base ++ line :: rest) existing
        = Except.error (ParseError.missingDir st.cur_thread)
    ∧ finalDatabase resolve (base ++ line :: rest) existing = existing
    ∧ panicMessage (ParseError.missingDir st.cur_thread)
        = "Unable to determine directory for thread ".data ++ st.cur_thread := by
  have hstep := step_finalize_err st line hmode hterm hdir
  have hfull : runLines initState (base ++ line :: rest)
      = .error (ParseError.missingDir st.cur_thread) := by
    rw [runLines_append_ok base (line :: rest) initState st hrun]
    exact runLines_cons_err st line rest _ hstep
  have hg : get_raw_commands (base ++ line :: rest)
      = Except.error (ParseError.missingDir st.cur_thread) := by
    show (runLines initState (base ++ line :: rest)).map (fun s => s.commands)
      = Except.error (ParseError.missingDir st.cur_thread)
    rw [hfull]
    rfl
  have ht : runTool resolve (base ++ line :: rest) existing
      = Except.error (ParseError.missingDir st.cur_thread) := by
    show (match get_raw_commands (base ++ line :: rest) with
      | .ok raws => Except.ok (merge_new_compile_commands existing
          ((raws.map (CompileCommandsEntry.from_raw_command resolve)).flatten))
      | .error e => Except.error e)
      = Except.error (ParseError.missingDir st.cur_thread)
    rw [hg]
  refine ⟨hg, ht, ?_, rfl⟩
  show (match runTool resolve (base ++ line :: rest) existing with
    | .ok merged => merged
    | .error _ => existing) = existing
  rw [ht]

theorem c2_missing_dir_fatal_witness :
    runLines initState ["0001>cl a.cpp".data] = Except.ok
      ⟨Mode.readingCommand, [], ["cl a.cpp".data], "0001>   ".data, "0001".data, []⟩
    ∧ isPfxOf "0001>   ".data "done.".data = false
    ∧ (get_raw_commands ["0001>cl a.cpp".data, "done.".data]
          = Except.error (ParseError.missingDir "0001".data)
      ∧ runTool (fun _ _ => []) ["0001>cl a.cpp".data, "done.".data]
            [⟨"d".data, "c".data, "f".data⟩]
          = Except.error (ParseError.missingDir "0001".data)
      ∧ finalDatabase (fun _ _ => []) ["0001>cl a.cpp".data, "done.".data]
            [⟨"d".data, "c".data, "f".data⟩]
          = [⟨"d".data, "c".data, "f".data⟩]
      ∧ panicMessage (ParseError.missingDir "0001".data)
          = "Unable to determine directory for thread ".data ++ "0001".data) :=
  ⟨by decide, by decide,
    c2_missing_dir_fatal ["0001>cl a.cpp".data] "done.".data []
      ⟨Mode.readingCommand, [], ["cl a.cpp".data], "0001>   ".data, "0001".data, []⟩
      (fun _ _ => []) [⟨"d".data, "c".data, "f".data⟩]
      (by decide) rfl (by decide) rfl⟩

lemma runLines_conts (conts : List Line) : ∀ st : PState,
    st.mode = Mode.readingCommand → ThreadShape st →
    (∀ c ∈ conts, isPfxOf st.commandPfx c = true) →
    ∃ st2, runLines st conts = .ok st2 ∧ st2.commands = st.commands := by
  induction conts with
  | nil =>
    intro st _ _ _
    exact ⟨st, by rw [runLines], rfl⟩
  | cons c rest ih =>
    intro st hmode hsh hc
    have hstep := step_cont st c hmode hsh (hc c (by simp))
    obtain ⟨st2, h1, h2⟩ := ih
      { st with cur_command := st.cur_command ++ [lineTrim (c.drop 5)] }
      hmode hsh (fun x hx => hc x (List.mem_cons_of_mem c hx))
    refine ⟨st2, ?_, h2⟩
    rw [runLines_cons_ok st _ c rest hstep]
    exact h1

/-- C7: when the parser reaches the end of the log while reading a command
(a command-start line followed only by continuation lines), the in-progress
command is not flushed: the output is exactly the commands finalized before
it started, and the processing pipeline produces the same database as if the
trailing incomplete segment were absent. -/
theorem c7_trailing_incomplete_dropped (base : List Line) (start : Line)
    (conts : List Line) (st : PState) (t : Line) (resolve : Line → Line → Line)
    (existing : List CompileCommandsEntry)
    (hrun : runLines initState base = .ok st)
    (hmode : st.mode = Mode.lookingForCommand)
    (hstart : commandStartTag start = some t)
    (hconts : ∀ c ∈ conts, isPfxOf (t ++ ['>', ' ', ' ', ' ']) c = true) :
    get_raw_commands (base ++ start :: conts) = Except.ok st.commands
    ∧ runTool resolve (base ++ start :: conts) existing
        = runTool resolve base existing := by
  obtain ⟨hteq, ht4, htd, hbd⟩ := commandStart_inv start t hstart
  have hstep := step_commandStart st start t hmode hstart
  obtain ⟨st2, hrun2, hcmds2⟩ := runLines_conts conts
    { st with
      mode := Mode.readingCommand, cur_thread := t,
      commandPfx := t ++ ['>', ' ', ' ', ' '],
      cur_command := st.cur_command ++ [lineTrim (start.drop 5)] }
    rfl (fun _ => ⟨ht4, htd, rfl⟩) hconts
  have hfull : runLines initState (base ++ start :: conts) = .ok st2 := by
    rw [runLines_append_ok base (start :: conts) initState st hrun,
      runLines_cons_ok st _ start conts hstep]
    exact hrun2
  have hg1 : get_raw_commands (base ++ start :: conts) = Except.ok st.commands := by
    show (runLines initState (base ++ start :: conts)).map (fun s => s.commands)
      = Except.ok st.commands
    rw [hfull]
    show Except.ok st2.commands = Except.ok st.commands
    rw [hcmds2]
  have hg2 : get_raw_commands base = Except.ok st.commands := by
    show (runLines initState base).map (fun s => s.commands) = Except.ok st.commands
    rw [hrun]
    rfl
  refine ⟨hg1, ?_⟩
  show (match get_raw_commands (base ++ start :: conts) with
    | .ok raws => Except.ok (merge_new_compile_commands existing
        ((raws.map (CompileCommandsEntry.from_raw_command resolve)).flatten))
    | .error e => Except.error e)
    = match get_raw_commands base with
    | .ok raws => Except.ok (merge_new_compile_commands existing
        ((raws.map (CompileCommandsEntry.from_raw_command resolve)).flatten))
    | .error e => Except.error e
  rw [hg1, hg2]

theorem c7_trailing_incomplete_dropped_witness :
    runLines initState [] = Except.ok initState
    ∧ commandStartTag "0001>cl foo.cpp".data = some "0001".data
    ∧ (∀ c ∈ ["0001>   bar.cpp".data],
        isPfxOf ("0001".data ++ ['>', ' ', ' ', ' ']) c = true)
    ∧ (get_raw_commands ([] ++ "0001>cl foo.cpp".data :: ["0001>   bar.cpp".data])
          = Except.ok initState.commands
      ∧ runTool (fun _ _ => []) ([] ++ "0001>cl foo.cpp".data :: ["0001>   bar.cpp".data])
            [⟨"d".data, "c".data, "f".data⟩]
          = runTool (fun _ _ => []) [] [⟨"d".data, "c".data, "f".data⟩]) :=
  ⟨rfl, by decide, by decide,
    c7_trailing_incomplete_dropped [] "0001>cl foo.cpp".data ["0001>   bar.cpp".data]
      initState "0001".data (fun _ _ => []) [⟨"d".data, "c".data, "f".data⟩]
      rfl rfl (by decide) (by decide)⟩

/-- C6: a token is in `source_files` exactly when it is a whitespace-split
token of one of the command's lines whose text ends, case-sensitively, in
`.cpp` or `.c`; and on a command carrying the spec's near-miss tokens
(`program.cppx`, `library.ccpp`, `foo.cpps`, `foo.CPP`) only the true
source tokens `a.cpp` and `b.c` are extracted. -/
theorem c6_source_files (rc : RawCommand) (t : Line) :
    (t ∈ rc.source_files ↔
      ((∃ ln ∈ rc.lines, t ∈ splitWs ln)
        ∧ ((∃ r, r ++ ".cpp".data = t) ∨ ∃ r, r ++ ".c".data = t)))
    ∧ RawCommand.source_files
        ⟨"dir".data,
          ["cl program.cppx library.ccpp foo.cpps foo.CPP a.cpp b.c".data]⟩
      = ["a.cpp".data, "b.c".data] := by
  constructor
  · show t ∈ (rc.lines.map fun line =>
        (splitWs line).filter fun tok =>
          isSfxOf ".cpp".data tok || isSfxOf ".c".data tok).flatten ↔ _
    constructor
    · intro ht
      rw [List.mem_flatten] at ht
      obtain ⟨s, hs, hts⟩ := ht
      rw [List.mem_map] at hs
      obtain ⟨ln, hln, hlneq⟩ := hs
      rw [← hlneq] at hts
      rw [List.mem_filter] at hts
      refine ⟨⟨ln, hln, hts.1⟩, ?_⟩
      have hor : isSfxOf ".cpp".data t = true ∨ isSfxOf ".c".data t = true := by
        simpa using hts.2
      rcases hor with h | h
      · exact Or.inl ((isSfxOf_iff _ _).mp h)
      · exact Or.inr ((isSfxOf_iff _ _).mp h)
    · rintro ⟨⟨ln, hln, htln⟩, hsfx⟩
      rw [List.mem_flatten]
      refine ⟨(splitWs ln).filter
          (fun tok => isSfxOf ".cpp".data tok || isSfxOf ".c".data tok),
        List.mem_map_of_mem _ hln, ?_⟩
      rw [List.mem_filter]
      refine ⟨htln, ?_⟩
      rcases hsfx with h | h
      · have hx := (isSfxOf_iff ".cpp".data t).mpr h
        simp [hx]
      · have hx := (isSfxOf_iff ".c".data t).mpr h
        simp [hx]
  · decide

lemma step_finalize_ok (st : PState) (line : Line) (d : Line)
    (hmode : st.mode = Mode.readingCommand)
    (hp : isPfxOf st.commandPfx line = false)
    (hd : dirLookup st.dirs st.cur_thread = some d) :
    step st line = .ok { st with
                         commands := st.commands ++ [⟨d, st.cur_command⟩],
                         cur_command := [], mode := Mode.lookingForCommand } := by
  obtain ⟨mode, dirs, cur, pfx, thr, cmds⟩ := st
  dsimp only at hmode hp hd ⊢
  subst hmode
  simp only [step]
  rw [if_neg (by rw [hp]; exact Bool.false_ne_true)]
  simp only [finalizeCommand, hd]

lemma step_noCommand (st : PState) (line : Line)
    (hmode : st.mode = Mode.lookingForCommand)
    (hcs : commandStartTag line = none) :
    ∃ d2, step st line = .ok { st with dirs := d2 } := by
  obtain ⟨mode, dirs, cur, pfx, thr, cmds⟩ := st
  dsimp only at hmode ⊢
  subst hmode
  simp only [step, lookingStep, hcs]
  cases hb : buildmsgMatch line with
  | some td =>
    obtain ⟨t, d⟩ := td
    exact ⟨(t, d) :: dirs, rfl⟩
  | none =>
    cases hc : compilingMatch line with
    | some td =>
      obtain ⟨t, d⟩ := td
      exact ⟨(t, d) :: dirs, rfl⟩
    | none => exact ⟨dirs, rfl⟩

lemma step_inv9 (P : Line → Prop) (st : PState) (line : Line)
    (hP : P line) (hinv : Inv9 P st) :
    ∀ st2, step st line = .ok st2 → Inv9 P st2 := by
  intro st2 hok
  obtain ⟨hsh, hempty, hscoped, hfrag⟩ := hinv
  cases hmode : st.mode with
  | lookingForCommand =>
    cases hcs : commandStartTag line with
    | some t =>
      obtain ⟨hteq, ht4, htd, hbd⟩ := commandStart_inv line t hcs
      rw [step_commandStart st line t hmode hcs] at hok
      injection hok with h2
      rw [← h2]
      refine ⟨fun _ => ⟨ht4, htd, rfl⟩, fun hm => Mode.noConfusion hm, hscoped, ?_⟩
      intro _ frag hf
      have hf2 : frag ∈ st.cur_command ++ [lineTrim (line.drop 5)] := hf
      rw [hempty hmode, List.nil_append, List.mem_singleton] at hf2
      exact ⟨line, hP, hteq.symm, hf2⟩
    | none =>
      obtain ⟨d2, hstep⟩ := step_noCommand st line hmode hcs
      rw [hstep] at hok
      injection hok with h2
      rw [← h2]
      exact ⟨fun hm => hsh hm, fun hm => hempty hm, hscoped, fun hm => hfrag hm⟩
  | readingCommand =>
    by_cases hp : isPfxOf st.commandPfx line = true
    · obtain ⟨ht4, htd, hpfx⟩ := hsh hmode
      obtain ⟨htake, -⟩ := contPfx_inv st.cur_thread line ht4 htd
        (by rw [← hpfx]; exact hp)
      rw [step_cont st line hmode hsh hp] at hok
      injection hok with h2
      rw [← h2]
      refine ⟨fun _ => ⟨ht4, htd, hpfx⟩, ?_, hscoped, ?_⟩
      · intro hm
        have hm2 : st.mode = Mode.lookingForCommand := hm
        rw [hmode] at hm2
        exact Mode.noConfusion hm2
      · intro _ frag hf
        have hf2 : frag ∈ st.cur_command ++ [lineTrim (line.drop 5)] := hf
        rcases List.mem_append.mp hf2 with hold | hnew
        · exact hfrag hmode frag hold
        · rw [List.mem_singleton] at hnew
          exact ⟨line, hP, htake, hnew⟩
    · have hp2 : isPfxOf st.commandPfx line = false := by
        cases hval : isPfxOf st.commandPfx line
        · rfl
        · exact absurd hval hp
      cases hd : dirLookup st.dirs st.cur_thread with
      | some d =>
        obtain ⟨ht4, htd, hpfx⟩ := hsh hmode
        rw [step_finalize_ok st line d hmode hp2 hd] at hok
        injection hok with h2
        rw [← h2]
        refine ⟨fun hm => Mode.noConfusion hm, fun _ => rfl, ?_, fun hm => Mode.noConfusion hm⟩
        intro rc hrc
        have hrc2 : rc ∈ st.commands ++ [⟨d, st.cur_command⟩] := hrc
        rcases List.mem_append.mp hrc2 with hold | hnew
        · exact hscoped rc hold
        · rw [List.mem_singleton] at hnew
          rw [hnew]
          exact ⟨st.cur_thread, ht4, htd, fun frag hf => hfrag hmode frag hf⟩
      | none =>
        rw [step_finalize_err st line hmode hp2 hd] at hok
        exact Except.noConfusion hok

lemma runLines_inv9 (P : Line → Prop) (log : List Line) : ∀ st st2 : PState,
    (∀ l ∈ log, P l) → Inv9 P st → runLines st log = .ok st2 → Inv9 P st2 := by
  induction log with
  | nil =>
    intro st st2 _ hinv h
    rw [runLines] at h
    injection h with h2
    rw [← h2]
    exact hinv
  | cons l rest ih =>
    intro st st2 hP hinv h
    cases hs : step st l with
    | ok st3 =>
      rw [runLines_cons_ok st st3 l rest hs] at h
      exact ih st3 st2 (fun x hx => hP x (List.mem_cons_of_mem l hx))
        (step_inv9 P st l (hP l (by simp)) hinv st3 hs) h
    | error e =>
      rw [runLines_cons_err st l rest e hs] at h
      exact Except.noConfusion h

/-- C9: continuation-matching is thread-scoped: every RawCommand the parser
outputs draws all of its fragments from log lines bearing one single 4-digit
thread tag (the first four characters of each line), so a line emitted by a
different thread is never attributed to it. -/
theorem c9_thread_scoped (log : List Line) (cmds : List RawCommand) (rc : RawCommand)
    (hparse : get_raw_commands log = Except.ok cmds) (hmem : rc ∈ cmds) :
    ∃ t, t.length = 4 ∧ (∀ c ∈ t, c.isDigit = true)
      ∧ ∀ frag ∈ rc.lines, ∃ l, l ∈ log ∧ l.take 4 = t
          ∧ frag = lineTrim (l.drop 5) := by
  have hparse2 : (runLines initState log).map (fun s => s.commands)
      = Except.ok cmds := hparse
  cases hr : runLines initState log with
  | error e =>
    rw [hr] at hparse2
    exact Except.noConfusion hparse2
  | ok stF =>
    rw [hr] at hparse2
    have hcmds : stF.commands = cmds := by
      simp only [Except.map] at hparse2
      injection hparse2 with h2
    have hinvF := runLines_inv9 (fun l => l ∈ log) log initState stF
      (fun l hl => hl)
      (by
        refine ⟨?_, fun _ => rfl, ?_, ?_⟩
        · intro hm
          exact absurd hm (by decide)
        · intro rc2 hrc2
          exact absurd hrc2 (by simp [initState])
        · intro hm
          exact absurd hm (by decide))
      hr
    have hsc := hinvF.2.2.1 rc (by rw [hcmds]; exact hmem)
    obtain ⟨t, ht4, htd, hfr⟩ := hsc
    exact ⟨t, ht4, htd, fun frag hf => hfr frag hf⟩

theorem c9_thread_scoped_witness :
    get_raw_commands
        [ "0001>BUILDMSG: Processing dd".data, "0001>cl a.cpp".data,
          "0001>   b.cpp".data, "done.".data ]
      = Except.ok [⟨"dd".data, ["cl a.cpp".data, "b.cpp".data]⟩]
    ∧ (⟨"dd".data, ["cl a.cpp".data, "b.cpp".data]⟩ : RawCommand)
        ∈ [(⟨"dd".data, ["cl a.cpp".data, "b.cpp".data]⟩ : RawCommand)]
    ∧ ∃ t, t.length = 4 ∧ (∀ c ∈ t, c.isDigit = true)
      ∧ ∀ frag ∈ (⟨"dd".data, ["cl a.cpp".data, "b.cpp".data]⟩ : RawCommand).lines,
          ∃ l, l ∈ [ "0001>BUILDMSG: Processing dd".data, "0001>cl a.cpp".data,
                     "0001>   b.cpp".data, "done.".data ]
            ∧ l.take 4 = t ∧ frag = lineTrim (l.drop 5) :=
  ⟨by decide, by decide,
    c9_thread_scoped
      [ "0001>BUILDMSG: Processing dd".data, "0001>cl a.cpp".data,
        "0001>   b.cpp".data, "done.".data ]
      [⟨"dd".data, ["cl a.cpp".data, "b.cpp".data]⟩]
      ⟨"dd".data, ["cl a.cpp".data, "b.cpp".data]⟩
      (by decide) (by decide)⟩

/-- C1 (amended): when the parser is in ReadingCommand and meets a line that
does not start with the current thread's continuation prefix, the in-progress
command is finalized and the terminating line is consumed without being
offered to LookingForCommand's matching logic: the step's result does not
depend on the line's content at all, so a command-start or
directory-announcement line in that position is silently dropped. -/
theorem c1_terminating_line_dropped (st : PState) (l l2 : Line)
    (hmode : st.mode = Mode.readingCommand)
    (h1 : isPfxOf st.commandPfx l = false)
    (h2 : isPfxOf st.commandPfx l2 = false) :
    step st l = step st l2 := by
  obtain ⟨mode, dirs, cur, pfx, thr, cmds⟩ := st
  dsimp only at hmode h1 h2 ⊢
  subst hmode
  simp only [step]
  rw [if_neg (by rw [h1]; exact Bool.false_ne_true),
    if_neg (by rw [h2]; exact Bool.false_ne_true)]

theorem c1_terminating_line_dropped_witness :
    isPfxOf "0001>   ".data "0002>BUILDMSG: Processing dd".data = false
    ∧ isPfxOf "0001>   ".data "0001>cl b.cpp".data = false
    ∧ step ⟨Mode.readingCommand, [("0001".data, "dd".data)], ["cl a.cpp".data],
          "0001>   ".data, "0001".data, []⟩ "0002>BUILDMSG: Processing dd".data
      = step ⟨Mode.readingCommand, [("0001".data, "dd".data)], ["cl a.cpp".data],
          "0001>   ".data, "0001".data, []⟩ "0001>cl b.cpp".data :=
  ⟨by decide, by decide,
    c1_terminating_line_dropped
      ⟨Mode.readingCommand, [("0001".data, "dd".data)], ["cl a.cpp".data],
        "0001>   ".data, "0001".data, []⟩
      "0002>BUILDMSG: Processing dd".data "0001>cl b.cpp".data
      rfl (by decide) (by decide)⟩

/-- C1 (counterexample): in this log the line terminating thread 0001's
command is itself thread 0002's directory announcement.  The code consumes
it without re-evaluation, so thread 0002 never gets a directory entry and
the parse aborts with the missing-directory panic; the parser variant
modelled from the spec's words (which re-offers the terminating line to
LookingForCommand) records the directory and reconstructs both commands. -/
theorem c1_counterexample :
    get_raw_commands
        [ "0001>BUILDMSG: Processing dirA".data, "0001>cl a.cpp".data,
          "0002>BUILDMSG: Processing dirB".data, "0002>cl b.cpp".data,
          "0002>done".data ]
      = Except.error (ParseError.missingDir "0002".data)
    ∧ spec_get_raw_commands
        [ "0001>BUILDMSG: Processing dirA".data, "0001>cl a.cpp".data,
          "0002>BUILDMSG: Processing dirB".data, "0002>cl b.cpp".data,
          "0002>done".data ]
      = Except.ok [⟨"dirA".data, ["cl a.cpp".data]⟩, ⟨"dirB".data, ["cl b.cpp".data]⟩] :=
  ⟨by decide, by decide⟩

lemma byteDrop_of_ascii (n : Nat) : ∀ l : Line, (∀ c ∈ l, c.utf8Size = 1) →
    n ≤ l.length → byteDrop n l = some (l.drop n) := by
  induction n with
  | zero =>
    intro l _ _
    rw [byteDrop]
    rfl
  | succ n ih =>
    intro l hascii hlen
    cases l with
    | nil => simp at hlen
    | cons c rest =>
      rw [byteDrop_cons_ascii n c rest (hascii c (by simp))]
      rw [ih rest (fun x hx => hascii x (List.mem_cons_of_mem c hx)) (by simpa using hlen)]
      rfl

lemma isPfxOf_length (p l : Line) (h : isPfxOf p l = true) : p.length ≤ l.length := by
  obtain ⟨r, hr⟩ := (isPfxOf_iff p l).mp h
  rw [← hr, List.length_append]
  exact Nat.le_add_right _ _

lemma commandStartU_inv (l t : Line) (h : commandStartTagU l = some t) :
    t.length = 4 ∧ 8 ≤ l.length := by
  rcases l with _ | ⟨c0, _ | ⟨c1, _ | ⟨c2, _ | ⟨c3, _ | ⟨c4, _ | ⟨c5, _ | ⟨c6, _ | ⟨w, r⟩⟩⟩⟩⟩⟩⟩⟩
  · simp [commandStartTagU] at h
  · simp [commandStartTagU] at h
  · simp [commandStartTagU] at h
  · simp [commandStartTagU] at h
  · simp [commandStartTagU] at h
  · simp [commandStartTagU] at h
  · simp [commandStartTagU] at h
  · simp [commandStartTagU] at h
  rw [commandStartTagU] at h
  by_cases hc : (isUniDigit c0 && isUniDigit c1 && isUniDigit c2 && isUniDigit c3
      && (c4 = '>') && (c5 = 'c') && (c6 = 'l') && isUniWhite w) = true
  · rw [if_pos hc] at h
    injection h with ht
    constructor
    · rw [← ht]
      rfl
    · simp only [List.length_cons]
      omega
  · rw [if_neg hc] at h
    exact absurd h (by simp)

lemma stepU_shape (st : PState) (line : Line)
    (hline : ∀ c ∈ line, c.utf8Size = 1) (hsh : ThreadShapeU st) :
    (∀ e, stepU st line = .error e → ∃ t2, e = ParseError.missingDir t2)
    ∧ (∀ st2, stepU st line = .ok st2 → ThreadShapeU st2) := by
  obtain ⟨mode, dirs, cur, pfx, thr, cmds⟩ := st
  cases mode with
  | lookingForCommand =>
    cases hcs : commandStartTagU line with
    | some t =>
      obtain ⟨ht4, hlen⟩ := commandStartU_inv line t hcs
      have hbd : byteDrop 5 line = some (line.drop 5) :=
        byteDrop_of_ascii 5 line hline (Nat.le_trans (by decide) hlen)
      simp only [stepU, lookingStepU, hcs, hbd]
      refine ⟨fun e he => Except.noConfusion he, ?_⟩
      intro st2 hok
      injection hok with h2
      rw [← h2]
      intro _
      simp [List.length_append, ht4]
    | none =>
      cases hb : buildmsgMatchU line with
      | some td =>
        obtain ⟨t, d⟩ := td
        simp only [stepU, lookingStepU, hcs, hb]
        refine ⟨fun e he => Except.noConfusion he, ?_⟩
        intro st2 hok
        injection hok with h2
        rw [← h2]
        intro hm
        exact Mode.noConfusion hm
      | none =>
        cases hc : compilingMatchU line with
        | some td =>
          obtain ⟨t, d⟩ := td
          simp only [stepU, lookingStepU, hcs, hb, hc]
          refine ⟨fun e he => Except.noConfusion he, ?_⟩
          intro st2 hok
          injection hok with h2
          rw [← h2]
          intro hm
          exact Mode.noConfusion hm
        | none =>
          simp only [stepU, lookingStepU, hcs, hb, hc]
          refine ⟨fun e he => Except.noConfusion he, ?_⟩
          intro st2 hok
          injection hok with h2
          rw [← h2]
          intro hm
          exact Mode.noConfusion hm
  | readingCommand =>
    by_cases hp : isPfxOf pfx line = true
    · have hlen : 8 ≤ line.length := by
        have h8 : pfx.length = 8 := hsh rfl
        rw [← h8]
        exact isPfxOf_length pfx line hp
      have hbd : byteDrop 5 line = some (line.drop 5) :=
        byteDrop_of_ascii 5 line hline (Nat.le_trans (by decide) hlen)
      simp only [stepU]
      rw [if_pos hp, hbd]
      refine ⟨fun e he => Except.noConfusion he, ?_⟩
      intro st2 hok
      injection hok with h2
      rw [← h2]
      intro _
      exact hsh rfl
    · simp only [stepU]
      rw [if_neg hp]
      cases hd : dirLookup dirs thr with
      | some d =>
        simp only [finalizeCommand, hd]
        refine ⟨fun e he => Except.noConfusion he, ?_⟩
        intro st2 hok
        injection hok with h2
        rw [← h2]
        intro hm
        exact Mode.noConfusion hm
      | none =>
        simp only [finalizeCommand, hd]
        refine ⟨?_, fun st2 hok => Except.noConfusion hok⟩
        intro e he
        injection he with h2
        exact ⟨thr, h2.symm⟩

lemma runLinesU_cons_ok (st st2 : PState) (l : Line) (rest : List Line)
    (h : stepU st l = .ok st2) : runLinesU st (l :: rest) = runLinesU st2 rest := by
  rw [runLinesU, h]

lemma runLinesU_cons_err (st : PState) (l : Line) (rest : List Line) (e : ParseError)
    (h : stepU st l = .error e) : runLinesU st (l :: rest) = .error e := by
  rw [runLinesU, h]

lemma runLinesU_shape_no_slice (log : List Line) : ∀ st : PState,
    (∀ l ∈ log, ∀ c ∈ l, c.utf8Size = 1) → ThreadShapeU st →
    runLinesU st log ≠ .error ParseError.slicePanic := by
  induction log with
  | nil =>
    intro st _ _ h
    rw [runLinesU] at h
    exact Except.noConfusion h
  | cons l rest ih =>
    intro st hascii hsh h
    obtain ⟨herr, hok⟩ := stepU_shape st l (hascii l (by simp)) hsh
    cases hs : stepU st l with
    | ok st2 =>
      rw [runLinesU_cons_ok st st2 l rest hs] at h
      exact ih st2 (fun x hx => hascii x (List.mem_cons_of_mem l hx)) (hok st2 hs) h
    | error e =>
      rw [runLinesU_cons_err st l rest e hs] at h
      obtain ⟨t2, rfl⟩ := herr e hs
      injection h with h2
      exact ParseError.noConfusion h2

/-- C10 (amended): under the regex crate's Unicode-aware `\d`, the slice
`line[5..]` CAN panic — but on logs made of one-byte characters (all that
the build tool emits), the command-start match and the continuation check
each guarantee at least five one-byte characters before the slice, so the
parser never fails with the slice panic. -/
theorem c10_ascii_slice_safe (log : List Line)
    (hascii : ∀ l ∈ log, ∀ c ∈ l, c.utf8Size = 1) :
    get_raw_commandsU log ≠ Except.error ParseError.slicePanic := by
  intro h
  have hns := runLinesU_shape_no_slice log initState hascii
    (by intro hm; exact absurd hm (by decide))
  have h2 : (runLinesU initState log).map (fun s => s.commands)
      = Except.error ParseError.slicePanic := h
  cases hr : runLinesU initState log with
  | ok st =>
    rw [hr] at h2
    exact Except.noConfusion h2
  | error e =>
    rw [hr] at h2
    simp only [Except.map] at h2
    injection h2 with h3
    rw [h3] at hr
    exact hns hr

theorem c10_ascii_slice_safe_witness :
    (∀ l ∈ [ "0001>BUILDMSG: Processing dd".data, "0001>cl a.cpp".data,
             "0001>   b.cpp".data, "done.".data ], ∀ c ∈ l, c.utf8Size = 1)
    ∧ get_raw_commandsU
        [ "0001>BUILDMSG: Processing dd".data, "0001>cl a.cpp".data,
          "0001>   b.cpp".data, "done.".data ]
      ≠ Except.error ParseError.slicePanic :=
  ⟨by decide,
    c10_ascii_slice_safe
      [ "0001>BUILDMSG: Processing dd".data, "0001>cl a.cpp".data,
        "0001>   b.cpp".data, "done.".data ]
      (by decide)⟩

/-- C10 (counterexample): the regex crate's `\d` is the Unicode class
`\p{Nd}`, so the line `123४>cl x` (whose fourth tag digit is the three-byte
U+096A DEVANAGARI DIGIT FOUR) matches `^(\d{4})>cl\s`, yet byte 5 of the
line falls inside `४`: it is not a character boundary, and `line[5..]`
panics — the matched prefix is not a 5-byte ASCII prefix. -/
theorem c10_counterexample :
    commandStartTagU "123४>cl x".data = some "123४".data
    ∧ byteDrop 5 "123४>cl x".data = none
    ∧ get_raw_commandsU ["123४>cl x".data]
        = Except.error ParseError.slicePanic :=
  ⟨by decide, by decide, by decide⟩

end BuildExe
